import Mathlib

/- Verification development for the CivicAtlas scraper
   (src/main.py, src/scraper.py, src/utils.py).

   Strings are modelled as `List Char`.  Python regular-expression operations
   are modelled by explicit recursive functions over the character list; the
   regex character classes `\s`, `\w` and `\d` are modelled by their ASCII
   parts, which is the alphabet all the claims quantify over. -/

/-- Python whitespace test (the regex class of the whitespace substitution), ASCII part. -/
def isPySpace (c : Char) : Bool :=
  c == ' ' || c == '\t' || c == '\n' || c == '\r' || c == '\x0b' || c == '\x0c'

/-- Python word-character test (regex word class), ASCII part: alphanumerics and underscore. -/
def isWordChar (c : Char) : Bool := c.isAlphanum || c == '_'

/-- Characters preserved by the second substitution in `normalize_text`:
    word characters, whitespace, hyphen, period, comma, parentheses and slash. -/
def keptChar (c : Char) : Bool :=
  isWordChar c || isPySpace c || c == '-' || c == '.' || c == ',' ||
    c == '(' || c == ')' || c == '/'

/-- Drop trailing whitespace: the right half of Python `str.strip`. -/
def stripTrail : List Char → List Char
  | [] => []
  | c :: cs =>
    match stripTrail cs with
    | [] => if isPySpace c then [] else [c]
    | r :: rs => c :: r :: rs

/-- Python `str.strip`: drop leading and trailing whitespace. -/
def pyStrip (l : List Char) : List Char := stripTrail (l.dropWhile isPySpace)

/-- Map every whitespace character to a plain space
    (first half of the whitespace-run substitution). -/
def mapWs (l : List Char) : List Char := l.map fun c => if isPySpace c then ' ' else c

/-- Collapse consecutive spaces (second half of the whitespace-run substitution). -/
def collapseSpaces : List Char → List Char
  | [] => []
  | [c] => [c]
  | a :: b :: r =>
    if a == ' ' && b == ' ' then collapseSpaces (b :: r) else a :: collapseSpaces (b :: r)

/-- Model of `re.sub` of one-or-more whitespace to a single space applied to
    `text.strip()`, as used twice in `normalize_text`. -/
def squeezeStrip (l : List Char) : List Char := collapseSpaces (mapWs (pyStrip l))

/-- Model of the substitution replacing every character outside the kept set with a space. -/
def subBadToSpace (l : List Char) : List Char := l.map fun c => if keptChar c then c else ' '

/-- `utils.normalize_text` (src/utils.py lines 59-81). -/
def normalize_text (l : List Char) : List Char :=
  if l.isEmpty then [] else squeezeStrip (subBadToSpace (squeezeStrip l))

/-- The `ward_info` dictionary of `_extract_ward_info_from_cells`. -/
structure WardInfo where
  ward_number : List Char
  ward_name : List Char
  lgd_code : List Char
deriving DecidableEq

/-- Python `str.isdigit` (ASCII digits): nonempty and all digits. -/
def pyIsDigit (t : List Char) : Bool := !t.isEmpty && t.all Char.isDigit

/-- Python `str.lower`, ASCII part. -/
def toLowerStr (t : List Char) : List Char := t.map Char.toLower

/-- Does `pat` occur at the head of the second list? -/
def startsWithList : List Char → List Char → Bool
  | [], _ => true
  | _ :: _, [] => false
  | p :: ps, c :: cs => p == c && startsWithList ps cs

/-- Does `pat` occur anywhere in the second list (Python substring containment)? -/
def containsList (pat : List Char) : List Char → Bool
  | [] => pat.isEmpty
  | c :: rest => startsWithList pat (c :: rest) || containsList pat rest

/-- The test for the substring `ward` inside `text.lower()`. -/
def containsWard (t : List Char) : Bool := containsList ("ward".toList) (toLowerStr t)

/-- Case-insensitive literal matcher: consume the pattern from the head of `s`. -/
def dropLitCI : List Char → List Char → Option (List Char)
  | [], s => some s
  | _ :: _, [] => none
  | p :: ps, c :: cs => if p.toLower = c.toLower then dropLitCI ps cs else none

/-- Match the ward-number regex (literal `ward`, optional whitespace, literal `no`,
    optional period, optional whitespace, one or more digits; case-insensitive)
    anchored at the head of `s`; returns the digits captured by the group. -/
def matchWardNoAt (s : List Char) : Option (List Char) :=
  match dropLitCI ("ward".toList) s with
  | none => none
  | some s1 =>
    match dropLitCI ("no".toList) (s1.dropWhile isPySpace) with
    | none => none
    | some s3 =>
      let s4 := match s3 with
        | '.' :: rest => rest
        | _ => s3
      let digits := (s4.dropWhile isPySpace).takeWhile Char.isDigit
      if digits.isEmpty then none else some digits

/-- The `re.search` for the ward-number pattern: try every start position, leftmost first. -/
def searchWardNo : List Char → Option (List Char)
  | [] => none
  | c :: rest =>
    match matchWardNoAt (c :: rest) with
    | some d => some d
    | none => searchWardNo rest

/-- One iteration of the cell loop of `_extract_ward_info_from_cells`
    (src/scraper.py lines 454-480): the if/elif rule chain for cell index `i`. -/
def stepCell (w : WardInfo) (i : Nat) (t : List Char) : WardInfo :=
  if t.isEmpty then w
  else if i = 0 ∧ pyIsDigit t then w
  else if i = 1 ∧ containsWard t then { w with ward_name := t }
  else if i = 2 ∧ pyIsDigit t then { w with ward_number := t }
  else if i = 3 ∧ pyIsDigit t then { w with lgd_code := t }
  else if pyIsDigit t ∧ 3 ≤ t.length ∧ w.lgd_code.isEmpty then { w with lgd_code := t }
  else if pyIsDigit t ∧ t.length ≤ 2 ∧ w.ward_number.isEmpty then { w with ward_number := t }
  else if containsWard t ∧ 5 < t.length ∧ w.ward_name.isEmpty then { w with ward_name := t }
  else
    match searchWardNo t with
    | some d => if w.ward_name.isEmpty then { w with ward_number := d, ward_name := t } else w
    | none => w

/-- The whole cell loop, threading the enumeration index. -/
def wardFold (cells : List (List Char)) : WardInfo :=
  (cells.foldl (fun p t => (stepCell p.1 p.2 t, p.2 + 1)) ((⟨[], [], []⟩ : WardInfo), 0)).1

/-- `_extract_ward_info_from_cells` applied to already-normalized cell texts:
    the empty-row guard, the cell loop, and the at-least-one-field validation. -/
def extractWardInfoFromTexts (cellTexts : List (List Char)) : Option WardInfo :=
  if cellTexts.all (fun t => t.isEmpty) then none
  else
    let w := wardFold cellTexts
    if w.ward_number.isEmpty && w.ward_name.isEmpty && w.lgd_code.isEmpty then none
    else some w

/-- `CivicAtlasScraper._extract_ward_info_from_cells` (src/scraper.py lines 440-490):
    normalizes each cell text and runs the extraction loop. -/
def extractWardFromCells (cells : List (List Char)) : Option WardInfo :=
  extractWardInfoFromTexts (cells.map normalize_text)

/-- `stepCell` with the final ward-number fallback branch removed
    (the comparison function of the C10 refinement claim). -/
def stepCellNB (w : WardInfo) (i : Nat) (t : List Char) : WardInfo :=
  if t.isEmpty then w
  else if i = 0 ∧ pyIsDigit t then w
  else if i = 1 ∧ containsWard t then { w with ward_name := t }
  else if i = 2 ∧ pyIsDigit t then { w with ward_number := t }
  else if i = 3 ∧ pyIsDigit t then { w with lgd_code := t }
  else if pyIsDigit t ∧ 3 ≤ t.length ∧ w.lgd_code.isEmpty then { w with lgd_code := t }
  else if pyIsDigit t ∧ t.length ≤ 2 ∧ w.ward_number.isEmpty then { w with ward_number := t }
  else if containsWard t ∧ 5 < t.length ∧ w.ward_name.isEmpty then { w with ward_name := t }
  else w

/-- The cell loop with the final fallback branch removed. -/
def wardFoldNB (cells : List (List Char)) : WardInfo :=
  (cells.foldl (fun p t => (stepCellNB p.1 p.2 t, p.2 + 1)) ((⟨[], [], []⟩ : WardInfo), 0)).1

/-- `_extract_ward_info_from_cells` with the final fallback branch removed. -/
def extractWardFromCellsNB (cells : List (List Char)) : Option WardInfo :=
  let cellTexts := cells.map normalize_text
  if cellTexts.all (fun t => t.isEmpty) then none
  else
    let w := wardFoldNB cellTexts
    if w.ward_number.isEmpty && w.ward_name.isEmpty && w.lgd_code.isEmpty then none
    else some w

/-- An urban local body record as built by the scraper. -/
structure UrbanBody where
  name : List Char
  url : List Char
  type : List Char
  district : List Char
deriving DecidableEq

/-- The URL-token-to-type table of `_extract_ulb_type_from_url`, in source order. -/
def typeMapping : List (List Char × List Char) :=
  [("municipal-corporations".toList, "Municipal Corporation".toList),
   ("municipality".toList, "Municipality".toList),
   ("town-panchayat".toList, "Town Panchayat".toList),
   ("notified-area-council".toList, "Notified Area Council".toList),
   ("cantonment-board".toList, "Cantonment Board".toList),
   ("nct-municipal-council".toList, "NCT Municipal Council".toList),
   ("city-municipal-council".toList, "City Municipal Council".toList),
   ("town-municipal-council".toList, "Town Municipal Council".toList)]

/-- First-match lookup over the mapping table. -/
def lookupUlbType (url : List Char) : List (List Char × List Char) → List Char
  | [] => "Unknown".toList
  | (pat, ty) :: rest => if containsList pat url then ty else lookupUlbType url rest

/-- `CivicAtlasScraper._extract_ulb_type_from_url` (src/scraper.py lines 360-377). -/
def extractUlbTypeFromUrl (url : List Char) : List Char := lookupUlbType url typeMapping

/-- The dedup-by-url loop at the end of `get_urban_bodies_from_state`
    (src/scraper.py lines 300-306): `unique_bodies` plus a `seen_urls` set. -/
def removeDupByUrl (bodies : List UrbanBody) : List UrbanBody :=
  (bodies.foldl
    (fun acc b => if b.url ∈ acc.2 then acc else (acc.1 ++ [b], acc.2 ++ [b.url]))
    (([], []) : List UrbanBody × List (List Char))).1

/-- Helper: first-occurrence dedup with an explicit seen set. -/
def dedupExcl (seen : List (List Char)) : List UrbanBody → List UrbanBody
  | [] => []
  | b :: rest =>
    if b.url ∈ seen then dedupExcl seen rest else b :: dedupExcl (seen ++ [b.url]) rest

/-- The spec's wording of the dedup invariant: keep the first occurrence of each
    url, preserving encounter order. -/
def dedupSpecByUrl : List UrbanBody → List UrbanBody
  | [] => []
  | b :: rest => b :: dedupSpecByUrl (rest.filter fun x => decide (x.url ≠ b.url))
termination_by l => l.length
decreasing_by exact Nat.lt_succ_of_le (List.length_filter_le _ _)

/-- Run trace of the `retry_on_failure` wrapper: final result, number of calls
    of the wrapped operation, number of warning-level retry log events, and the
    sleep durations in order. -/
structure RetryTrace (ε α : Type) where
  result : Except ε α
  calls : Nat
  warnings : Nat
  delays : List ℚ

/-- The attempt loop of `retry_on_failure` (src/utils.py lines 33-54).  The wrapped
    operation is modelled as a function from the attempt index to a result; on
    failure with retries left a warning is logged, the current delay is slept and
    multiplied by the backoff; when all attempts fail the last failure is raised. -/
def retryAux {ε α : Type} (f : Nat → Except ε α) (b : ℚ) :
    Nat → Nat → ℚ → RetryTrace ε α
  | attempt, 0, _ =>
    match f attempt with
    | Except.ok a => ⟨Except.ok a, 1, 0, []⟩
    | Except.error e => ⟨Except.error e, 1, 0, []⟩
  | attempt, n + 1, curDelay =>
    match f attempt with
    | Except.ok a => ⟨Except.ok a, 1, 0, []⟩
    | Except.error _ =>
      let rest := retryAux f b (attempt + 1) n (curDelay * b)
      ⟨rest.result, rest.calls + 1, rest.warnings + 1, curDelay :: rest.delays⟩

/-- `utils.retry_on_failure(max_retries, delay, backoff)` applied to an operation. -/
def retry_on_failure {ε α : Type} (f : Nat → Except ε α) (max_retries : Nat)
    (delay backoff : ℚ) : RetryTrace ε α :=
  retryAux f backoff 0 max_retries delay

/-- Concrete operation for the retry scenario: fails on attempts 0 and 1,
    succeeds on attempt 2. -/
def retryProbe : Nat → Except Unit Nat := fun n => if n < 2 then Except.error () else Except.ok 37

/-- The district loop of `get_urban_bodies_from_state` (src/scraper.py lines 255-267):
    each district page is fetched and its bodies appended; a failing district is
    logged and skipped. -/
def collectDistrictBodies {δ ε : Type} (fetchDistrict : δ → Except ε (List UrbanBody))
    (districts : List δ) : List UrbanBody :=
  districts.foldl
    (fun acc d =>
      match fetchDistrict d with
      | Except.ok bs => acc ++ bs
      | Except.error _ => acc) []

/-- Accumulated effects of the urban-body loop of `process_state_to_file`. -/
structure StateAcc where
  saved : List (UrbanBody × List WardInfo)
  bodies : Nat
  wards : Nat
  skipped : Nat
  errors : Nat
deriving DecidableEq

def isOkB {ε α : Type} : Except ε α → Bool
  | Except.ok _ => true
  | Except.error _ => false

/-- One iteration of the urban-body loop of `process_state_to_file`
    (src/scraper.py lines 206-228): a failing body increments the error counter
    and the loop continues; otherwise its wards are saved and counted. -/
def processBody {ε : Type} (fetchWards : UrbanBody → Except ε (List WardInfo))
    (acc : StateAcc) (b : UrbanBody) : StateAcc :=
  match fetchWards b with
  | Except.error _ => { acc with errors := acc.errors + 1 }
  | Except.ok ws =>
    if ws.isEmpty then { acc with skipped := acc.skipped + 1, bodies := acc.bodies + 1 }
    else { acc with saved := acc.saved ++ [(b, ws)], wards := acc.wards + ws.length,
                    bodies := acc.bodies + 1 }

/-- The whole urban-body loop of `process_state_to_file`. -/
def processStateBodies {ε : Type} (fetchWards : UrbanBody → Except ε (List WardInfo))
    (bodies : List UrbanBody) : StateAcc :=
  bodies.foldl (processBody fetchWards) ⟨[], 0, 0, 0, 0⟩

/-- The per-state future loop of `scrape_all_data` (src/scraper.py lines 78-89):
    counts processed states and errors; one state's failure only increments the
    error counter. -/
def runRegions {ρ ε : Type} (runRegion : ρ → Except ε Unit) (regions : List ρ) : Nat × Nat :=
  regions.foldl
    (fun p r =>
      match runRegion r with
      | Except.ok _ => (p.1 + 1, p.2)
      | Except.error _ => (p.1, p.2 + 1)) (0, 0)

/-- The possible outcomes of the `scraper.scrape_all_data()` call inside `main`. -/
inductive MainEvent where
  | scrapeReturns (success : Bool)
  | keyboardInterrupt
  | unexpectedError

/-- Process exit status of `main` (src/main.py lines 24-62): a `True` result falls
    through and the process ends with status 0; a `False` result exits 1; a
    keyboard interrupt exits 0; any other exception exits 1. -/
def mainExitCode : MainEvent → Nat
  | MainEvent.scrapeReturns true => 0
  | MainEvent.scrapeReturns false => 1
  | MainEvent.keyboardInterrupt => 0
  | MainEvent.unexpectedError => 1

/-- Top-level outcomes of `scrape_all_data` (src/scraper.py lines 50-101). -/
inductive ScrapeOutcome where
  | completed
  | noStates
  | fatalError

/-- Boolean return value of `scrape_all_data` for each top-level outcome. -/
def scrapeAllDataResult : ScrapeOutcome → Bool
  | ScrapeOutcome.completed => true
  | ScrapeOutcome.noStates => false
  | ScrapeOutcome.fatalError => false

/-- Spec-side one-pass collapse of whitespace runs, trimming on the right:
    a whitespace character is dropped when the rest collapses to nothing or
    already starts with a space, and becomes a single space otherwise. -/
def ctGo : List Char → List Char
  | [] => []
  | c :: cs =>
    if isPySpace c then
      match ctGo cs with
      | [] => []
      | r :: rs => if r == ' ' then r :: rs else ' ' :: r :: rs
    else c :: ctGo cs

/-- Spec-side definition: collapse all whitespace runs to single spaces and trim
    both ends. -/
def collapseTrimSpec (l : List Char) : List Char := ctGo (l.dropWhile isPySpace)

/-- Spec-side definition: replace every character outside the kept set with a space. -/
def replaceOutsideKept (l : List Char) : List Char :=
  l.map fun c => if keptChar c then c else ' '

/-- The amended claim's normalizer: collapse and trim, replace every character
    outside the kept set with a space, then collapse and trim again; empty input
    yields the empty string. -/
def normalizeSpecReplace (l : List Char) : List Char :=
  if l.isEmpty then [] else collapseTrimSpec (replaceOutsideKept (collapseTrimSpec l))

/-- The claim's literal reading: characters outside the kept set are removed
    (deleted), then whitespace is re-collapsed. -/
def normalizeSpecRemoves (l : List Char) : List Char :=
  if l.isEmpty then [] else collapseTrimSpec ((collapseTrimSpec l).filter keptChar)

/-- Character invariant of normalized output: whitespace only as a plain space,
    and every character in the kept set. -/
def goodChar (c : Char) : Bool := if isPySpace c then c == ' ' else keptChar c

/-- No two adjacent spaces. -/
def noTwoSpaces : List Char → Bool
  | a :: b :: r => !(a == ' ' && b == ' ') && noTwoSpaces (b :: r)
  | _ => true

/-- Helper: the first-match lookup yields Unknown when no token occurs in the url. -/
theorem lookupUlbType_unknown (url : List Char) :
    ∀ m : List (List Char × List Char), (∀ p ∈ m, containsList p.1 url = false) →
      lookupUlbType url m = "Unknown".toList := by
  intro m
  induction m with
  | nil => intro _; rfl
  | cons p rest ih =>
    intro h
    obtain ⟨pat, ty⟩ := p
    have hp : containsList pat url = false := h (pat, ty) (List.mem_cons_self _ _)
    simpa [lookupUlbType, hp] using ih fun q hq => h q (List.mem_cons_of_mem _ hq)

/-- C1 counterexample: on a user interrupt (KeyboardInterrupt) `main` calls
    `sys.exit(0)`, so the exit status is 0, not non-zero as the claim states. -/
theorem main_interrupt_exit_zero : mainExitCode MainEvent.keyboardInterrupt = 0 := rfl

/-- C1 (amended): when `scrape_all_data` returns true the program exits with
    status 0; when it returns false (no states discovered, or a fatal top-level
    error) or an unexpected exception reaches `main`, the program exits with a
    non-zero status; on a user interrupt (KeyboardInterrupt) it exits with
    status 0. -/
theorem main_exit_code_spec :
    mainExitCode (MainEvent.scrapeReturns (scrapeAllDataResult ScrapeOutcome.completed)) = 0 ∧
    mainExitCode (MainEvent.scrapeReturns (scrapeAllDataResult ScrapeOutcome.noStates)) ≠ 0 ∧
    mainExitCode (MainEvent.scrapeReturns (scrapeAllDataResult ScrapeOutcome.fatalError)) ≠ 0 ∧
    mainExitCode MainEvent.unexpectedError ≠ 0 ∧
    mainExitCode MainEvent.keyboardInterrupt = 0 := by decide

/-- C2 counterexample: on cell texts `["x", "7", "3"]` the fallback rule sets
    wardNumber to "7" at cell index 1, and the unguarded positional rule at cell
    index 2 then overwrites it with "3" — a field set while processing an earlier
    cell IS overwritten while processing a later cell. -/
theorem stepCell_overwrite_cex :
    wardFold ["x".toList, "7".toList] = ⟨"7".toList, [], []⟩ ∧
    stepCell ⟨"7".toList, [], []⟩ 2 ("3".toList) = ⟨"3".toList, [], []⟩ ∧
    wardFold ["x".toList, "7".toList, "3".toList] = ⟨"3".toList, [], []⟩ := by decide

/-- C6 counterexample: the code replaces a character outside the kept set with a
    space rather than removing it — on input "a@b" the code yields "a b" while
    the claim's removal-then-recollapse reading yields "ab". -/
theorem normalize_text_removal_cex :
    normalize_text ("a@b".toList) = "a b".toList ∧
    normalizeSpecRemoves ("a@b".toList) = "ab".toList ∧
    normalize_text ("a@b".toList) ≠ normalizeSpecRemoves ("a@b".toList) := by decide

/-- C7: the URL-to-type mapping maps each of the 8 defined URL tokens to its
    documented type by first match in the stated order; a URL containing
    "municipal-corporations" anywhere maps to Municipal Corporation even if it
    also matches another token; a URL matching none of the 8 tokens yields
    Unknown. -/
theorem extract_ulb_type_spec :
    (∀ url : List Char, containsList ("municipal-corporations".toList) url = true →
        extractUlbTypeFromUrl url = "Municipal Corporation".toList) ∧
    typeMapping.map (fun p => extractUlbTypeFromUrl p.1) = typeMapping.map Prod.snd ∧
    (∀ url : List Char, (∀ p ∈ typeMapping, containsList p.1 url = false) →
        extractUlbTypeFromUrl url = "Unknown".toList) := by
  refine ⟨?_, by decide, ?_⟩
  · intro url h
    simp only [extractUlbTypeFromUrl, typeMapping, lookupUlbType]
    rw [if_pos h]
  · intro url h
    exact lookupUlbType_unknown url typeMapping h

/-- C7 witness: a URL containing both the municipal-corporations token and the
    municipality token maps to Municipal Corporation, and a URL containing no
    token maps to Unknown. -/
theorem extract_ulb_type_spec_witness :
    extractUlbTypeFromUrl ("x-municipal-corporations-municipality-9".toList) =
        "Municipal Corporation".toList ∧
    extractUlbTypeFromUrl ("https://x/foo".toList) = "Unknown".toList :=
  ⟨extract_ulb_type_spec.1 _ (by decide), extract_ulb_type_spec.2.2 _ (by decide)⟩

/-- C8: on cell texts `["1", "Ward No. 5 - Central", "5", "123456"]` the
    extractor returns wardNumber "5", wardName "Ward No. 5 - Central" and
    lgdCode "123456"; on cells that are all empty after normalization it
    returns none. -/
theorem extract_ward_scenarios :
    extractWardFromCells
        ["1".toList, "Ward No. 5 - Central".toList, "5".toList, "123456".toList] =
      some ⟨"5".toList, "Ward No. 5 - Central".toList, "123456".toList⟩ ∧
    extractWardFromCells ["".toList, "".toList, "".toList] = none := by
  constructor <;> decide

/-- Helper: the dedup fold with generalized accumulator and seen set. -/
theorem removeDup_go (bs : List UrbanBody) :
    ∀ (acc : List UrbanBody) (seen : List (List Char)),
      (bs.foldl
        (fun acc b => if b.url ∈ acc.2 then acc else (acc.1 ++ [b], acc.2 ++ [b.url]))
        (acc, seen)).1 = acc ++ dedupExcl seen bs := by
  induction bs with
  | nil => intro acc seen; simp [dedupExcl]
  | cons b rest ih =>
    intro acc seen
    by_cases h : b.url ∈ seen
    · simp only [List.foldl_cons, if_pos h, dedupExcl, ih]
    · simp only [List.foldl_cons, if_neg h, dedupExcl, ih, List.append_assoc,
        List.singleton_append]

/-- Helper: the explicit-seen dedup equals the spec dedup of the not-yet-seen elements. -/
theorem dedupExcl_eq (bs : List UrbanBody) :
    ∀ seen : List (List Char),
      dedupExcl seen bs = dedupSpecByUrl (bs.filter fun x => decide (x.url ∉ seen)) := by
  induction bs with
  | nil => intro seen; simp [dedupExcl, dedupSpecByUrl]
  | cons b rest ih =>
    intro seen
    by_cases h : b.url ∈ seen
    · simp only [dedupExcl, if_pos h, ih, List.filter_cons]
      simp [h]
    · simp only [dedupExcl, if_neg h, ih, List.filter_cons]
      rw [if_pos (by simp [h])]
      rw [dedupSpecByUrl]
      congr 1
      rw [List.filter_filter]
      congr 1
      apply List.filter_congr
      intro x _
      simp only [List.mem_append, List.mem_singleton, decide_not, Bool.not_eq_true']
      by_cases hx : x.url ∈ seen
      · simp [hx]
      · by_cases hb : x.url = b.url <;> simp [hx, hb]

/-- Helper: the source dedup loop equals the explicit-seen dedup from empty state. -/
theorem removeDup_eq_dedupExcl (bs : List UrbanBody) : removeDupByUrl bs = dedupExcl [] bs := by
  have h := removeDup_go bs [] []
  simpa [removeDupByUrl] using h

/-- Helper: membership in the spec dedup implies membership in the input. -/
theorem mem_dedupSpec :
    ∀ (n : Nat) (l : List UrbanBody), l.length ≤ n → ∀ x ∈ dedupSpecByUrl l, x ∈ l := by
  intro n
  induction n with
  | zero =>
    intro l hl x hx
    rw [List.length_eq_zero.mp (Nat.le_zero.mp hl)] at hx ⊢
    simp [dedupSpecByUrl] at hx
  | succ n ih =>
    intro l hl x hx
    cases l with
    | nil => simp [dedupSpecByUrl] at hx
    | cons b rest =>
      rw [dedupSpecByUrl] at hx
      rcases List.mem_cons.mp hx with h | h
      · simp [h]
      · have hlen : (rest.filter fun x => decide (x.url ≠ b.url)).length ≤ n :=
          le_trans (List.length_filter_le _ _) (Nat.lt_succ_iff.mp (Nat.lt_of_lt_of_le
            (Nat.lt_succ_of_le (le_refl _)) (by simpa using hl)))
        have := ih _ hlen x h
        exact List.mem_cons_of_mem _ (List.mem_of_mem_filter this)

/-- Helper: the spec dedup has pairwise distinct urls. -/
theorem dedupSpec_pairwise :
    ∀ (n : Nat) (l : List UrbanBody), l.length ≤ n →
      (dedupSpecByUrl l).Pairwise (fun a b => a.url ≠ b.url) := by
  intro n
  induction n with
  | zero =>
    intro l hl
    rw [List.length_eq_zero.mp (Nat.le_zero.mp hl)]
    simp [dedupSpecByUrl]
  | succ n ih =>
    intro l hl
    cases l with
    | nil => simp [dedupSpecByUrl]
    | cons b rest =>
      rw [dedupSpecByUrl]
      have hlen : (rest.filter fun x => decide (x.url ≠ b.url)).length ≤ n := by
        have h1 : rest.length ≤ n := by simpa using Nat.succ_le_succ_iff.mp (by simpa using hl)
        exact le_trans (List.length_filter_le _ _) h1
      refine List.Pairwise.cons ?_ (ih _ hlen)
      intro x hx
      have hmem := mem_dedupSpec n _ hlen x hx
      have := List.of_mem_filter hmem
      simp only [decide_eq_true_eq] at this
      exact fun hb => this hb.symm

/-- C3: for every candidate urban-body sequence collected from a region's pages,
    the dedup step of `get_urban_bodies_from_state` returns the sequence
    deduplicated by url with the first occurrence kept, preserving encounter
    order, and the result never contains two entries with equal url. -/
theorem get_urban_bodies_dedup_spec (bodies : List UrbanBody) :
    removeDupByUrl bodies = dedupSpecByUrl bodies ∧
    (removeDupByUrl bodies).Pairwise (fun a b => a.url ≠ b.url) := by
  have he : removeDupByUrl bodies = dedupSpecByUrl bodies := by
    rw [removeDup_eq_dedupExcl, dedupExcl_eq]
    congr 1
    apply List.filter_eq_self.mpr
    intro a _
    simp
  exact ⟨he, he ▸ dedupSpec_pairwise bodies.length bodies (le_refl _)⟩

/-- Helper: the retry loop calls the operation at most retriesLeft + 1 times. -/
theorem retryAux_calls {ε α : Type} (f : Nat → Except ε α) (b : ℚ) :
    ∀ (r a : Nat) (d : ℚ), (retryAux f b a r d).calls ≤ r + 1 := by
  intro r
  induction r with
  | zero => intro a d; simp only [retryAux]; cases f a <;> simp
  | succ n ih =>
    intro a d
    simp only [retryAux]
    cases hf : f a with
    | ok v => simp
    | error e =>
      simp only []
      have := ih (a + 1) (d * b)
      omega

/-- Helper: the sleeps form the geometric sequence delay, delay*backoff, ... -/
theorem retryAux_delays {ε α : Type} (f : Nat → Except ε α) (b : ℚ) :
    ∀ (r a : Nat) (d : ℚ),
      (retryAux f b a r d).delays =
        (List.range (retryAux f b a r d).warnings).map (fun i => d * b ^ i) := by
  intro r
  induction r with
  | zero => intro a d; simp only [retryAux]; cases f a <;> simp
  | succ n ih =>
    intro a d
    simp only [retryAux]
    cases hf : f a with
    | ok v => simp
    | error e =>
      simp only []
      rw [ih (a + 1) (d * b)]
      have hfun : ((fun i => d * b ^ i) ∘ Nat.succ) = fun i => d * b * b ^ i := by
        funext i
        simp only [Function.comp_apply, pow_succ]
        ring
      rw [List.range_succ_eq_map, List.map_cons, List.map_map, hfun]
      simp

/-- Helper: when every attempt fails, the loop raises the error of the last attempt. -/
theorem retryAux_lastFail {ε α : Type} (f : Nat → Except ε α) (b : ℚ) :
    ∀ (r a : Nat) (d : ℚ),
      (∀ m, m ≤ r → isOkB (f (a + m)) = false) → (retryAux f b a r d).result = f (a + r) := by
  intro r
  induction r with
  | zero =>
    intro a d _
    simp only [Nat.add_zero]
    simp only [retryAux]
    cases hf : f a <;> rfl
  | succ n ih =>
    intro a d h
    have h0 := h 0 (Nat.zero_le _)
    simp only [Nat.add_zero] at h0
    simp only [retryAux]
    cases hf : f a with
    | ok v => rw [hf] at h0; simp [isOkB] at h0
    | error e =>
      simp only []
      have hrec := ih (a + 1) (d * b) (fun m hm => by
        have h2 := h (m + 1) (Nat.succ_le_succ hm)
        have e2 : a + (m + 1) = a + 1 + m := by omega
        rw [e2] at h2
        exact h2)
      rw [hrec]
      have e1 : a + 1 + n = a + (n + 1) := by omega
      rw [e1]

/-- Helper: if the first success is at attempt k within the budget, the loop
    returns it and logs exactly k warnings. -/
theorem retryAux_success {ε α : Type} (f : Nat → Except ε α) (b : ℚ) :
    ∀ (k r a : Nat) (d : ℚ) (v : α),
      k ≤ r → f (a + k) = Except.ok v → (∀ j, j < k → isOkB (f (a + j)) = false) →
      (retryAux f b a r d).result = Except.ok v ∧ (retryAux f b a r d).warnings = k := by
  intro k
  induction k with
  | zero =>
    intro r a d v _ hok _
    simp only [Nat.add_zero] at hok
    cases r with
    | zero => simp [retryAux, hok]
    | succ n => simp [retryAux, hok]
  | succ kk ih =>
    intro r a d v hk hok hfail
    have h0 := hfail 0 (Nat.succ_pos _)
    simp only [Nat.add_zero] at h0
    cases r with
    | zero => omega
    | succ n =>
      simp only [retryAux]
      cases hf : f a with
      | ok w => rw [hf] at h0; simp [isOkB] at h0
      | error e =>
        simp only []
        have e1 : a + (kk + 1) = a + 1 + kk := by omega
        rw [e1] at hok
        have hrec := ih n (a + 1) (d * b) v (by omega) hok (fun j hj => by
          have h2 := hfail (j + 1) (by omega)
          have e2 : a + (j + 1) = a + 1 + j := by omega
          rw [e2] at h2
          exact h2)
        exact ⟨hrec.1, by rw [hrec.2]⟩

/-- C4: the retry wrapper calls the wrapped operation at most maxRetries + 1
    times; before each retry it sleeps the current delay, which starts at the
    initial delay and is multiplied by the backoff each time (so with backoff
    2.0 the wait doubles); if every attempt fails it propagates the failure of
    the last attempt; if the first success is attempt k it returns that result
    and logs exactly k warning-level retry events (2 for a fetch that fails
    exactly twice). -/
theorem retry_on_failure_spec {ε α : Type} (f : Nat → Except ε α) (m : Nat) (d b : ℚ) :
    (retry_on_failure f m d b).calls ≤ m + 1 ∧
    (retry_on_failure f m d b).delays =
      (List.range (retry_on_failure f m d b).warnings).map (fun i => d * b ^ i) ∧
    ((∀ j, j ≤ m → isOkB (f j) = false) → (retry_on_failure f m d b).result = f m) ∧
    (∀ k v, k ≤ m → f k = Except.ok v → (∀ j, j < k → isOkB (f j) = false) →
      (retry_on_failure f m d b).result = Except.ok v ∧
        (retry_on_failure f m d b).warnings = k) := by
  refine ⟨retryAux_calls f b m 0 d, retryAux_delays f b m 0 d, ?_, ?_⟩
  · intro h
    have hres := retryAux_lastFail f b m 0 d (fun j hj => by simpa using h j hj)
    simpa using hres
  · intro k v hk hok hfail
    exact retryAux_success f b k m 0 d v hk (by simpa using hok)
      (fun j hj => by simpa using hfail j hj)

/-- C4 witness: an operation failing on attempts 0 and 1 and succeeding on
    attempt 2, run under maxRetries = 3, delay 1, backoff 2, returns the
    successful result and logs exactly 2 warning-level retry events. -/
theorem retry_on_failure_spec_witness :
    (retry_on_failure retryProbe 3 1 2).result = Except.ok 37 ∧
    (retry_on_failure retryProbe 3 1 2).warnings = 2 :=
  (retry_on_failure_spec retryProbe 3 1 2).2.2.2 2 37 (by decide) rfl
    (fun j hj => by interval_cases j <;> decide)

/-- Helper: the district fold with generalized accumulator. -/
theorem collectDistrict_go {δ ε : Type} (fetch : δ → Except ε (List UrbanBody)) :
    ∀ (ds : List δ) (acc : List UrbanBody),
      ds.foldl
        (fun acc d =>
          match fetch d with
          | Except.ok bs => acc ++ bs
          | Except.error _ => acc) acc =
      acc ++ (ds.map fun d =>
        match fetch d with
        | Except.ok bs => bs
        | Except.error _ => []).flatten := by
  intro ds
  induction ds with
  | nil => intro acc; simp
  | cons d rest ih =>
    intro acc
    simp only [List.foldl_cons, List.map_cons, List.flatten_cons]
    cases h : fetch d <;> simp [h, ih, List.append_assoc]

/-- Helper: the urban-body fold with generalized accumulator. -/
theorem processBodies_go {ε : Type} (f : UrbanBody → Except ε (List WardInfo)) :
    ∀ (bs : List UrbanBody) (acc : StateAcc),
      bs.foldl (processBody f) acc =
        ⟨acc.saved ++ bs.filterMap (fun b =>
            match f b with
            | Except.ok ws => if ws.isEmpty then none else some (b, ws)
            | Except.error _ => none),
         acc.bodies + bs.countP (fun b => isOkB (f b)),
         acc.wards + (bs.map (fun b =>
            match f b with
            | Except.ok ws => ws.length
            | Except.error _ => 0)).sum,
         acc.skipped + bs.countP (fun b =>
            match f b with
            | Except.ok ws => ws.isEmpty
            | Except.error _ => false),
         acc.errors + bs.countP (fun b => !isOkB (f b))⟩ := by
  intro bs
  induction bs with
  | nil => intro acc; simp
  | cons b rest ih =>
    intro acc
    simp only [List.foldl_cons]
    rw [ih]
    cases h : f b with
    | error e =>
      simp [processBody, h, List.countP_cons, List.filterMap_cons, isOkB, StateAcc.mk.injEq]
      omega
    | ok ws =>
      by_cases hws : ws = [] <;>
        simp [processBody, h, hws, List.countP_cons, List.filterMap_cons, isOkB,
          StateAcc.mk.injEq, List.append_assoc, List.singleton_append, List.isEmpty_iff] <;>
        omega

/-- Helper: the region fold with generalized accumulator. -/
theorem runRegions_go {ρ ε : Type} (f : ρ → Except ε Unit) :
    ∀ (rs : List ρ) (p : Nat × Nat),
      rs.foldl
        (fun p r =>
          match f r with
          | Except.ok _ => (p.1 + 1, p.2)
          | Except.error _ => (p.1, p.2 + 1)) p =
      (p.1 + rs.countP (fun r => isOkB (f r)), p.2 + rs.countP (fun r => !isOkB (f r))) := by
  intro rs
  induction rs with
  | nil => intro p; simp
  | cons r rest ih =>
    intro p
    simp only [List.foldl_cons]
    cases h : f r <;>
      simp [h, ih, List.countP_cons, isOkB, Prod.ext_iff] <;> omega

/-- C9: leaf failures are isolated from siblings.  The district loop of
    `get_urban_bodies_from_state` collects exactly the concatenation of the
    successful districts' bodies (a failing district contributes nothing and
    does not affect the others); the urban-body loop of `process_state_to_file`
    saves exactly the wards of the successful bodies and counts each body by its
    own outcome alone; the state loop of `scrape_all_data` counts each region by
    its own outcome alone, so one region's failure never aborts other regions. -/
theorem failure_isolation_spec :
    (∀ (δ ε : Type) (fetchDistrict : δ → Except ε (List UrbanBody)) (ds : List δ),
      collectDistrictBodies fetchDistrict ds =
        (ds.map fun d =>
          match fetchDistrict d with
          | Except.ok bs => bs
          | Except.error _ => []).flatten) ∧
    (∀ (ε : Type) (fetchWards : UrbanBody → Except ε (List WardInfo)) (bs : List UrbanBody),
      processStateBodies fetchWards bs =
        ⟨bs.filterMap (fun b =>
            match fetchWards b with
            | Except.ok ws => if ws.isEmpty then none else some (b, ws)
            | Except.error _ => none),
         bs.countP (fun b => isOkB (fetchWards b)),
         (bs.map (fun b =>
            match fetchWards b with
            | Except.ok ws => ws.length
            | Except.error _ => 0)).sum,
         bs.countP (fun b =>
            match fetchWards b with
            | Except.ok ws => ws.isEmpty
            | Except.error _ => false),
         bs.countP (fun b => !isOkB (fetchWards b))⟩) ∧
    (∀ (ρ ε : Type) (runRegion : ρ → Except ε Unit) (rs : List ρ),
      runRegions runRegion rs =
        (rs.countP (fun r => isOkB (runRegion r)),
         rs.countP (fun r => !isOkB (runRegion r)))) := by
  refine ⟨?_, ?_, ?_⟩
  · intro δ ε fetch ds
    have h := collectDistrict_go fetch ds []
    simpa [collectDistrictBodies] using h
  · intro ε f bs
    have h := processBodies_go f bs ⟨[], 0, 0, 0, 0⟩
    simpa [processStateBodies] using h
  · intro ρ ε f rs
    have h := runRegions_go f rs (0, 0)
    simpa [runRegions] using h

/-- Helper: a successful case-insensitive literal match decomposes the input. -/
theorem dropLitCI_spec :
    ∀ (p s r : List Char), dropLitCI p s = some r →
      s.length = p.length + r.length ∧ toLowerStr s = toLowerStr p ++ toLowerStr r := by
  intro p
  induction p with
  | nil =>
    intro s r h
    simp only [dropLitCI, Option.some.injEq] at h
    subst h
    simp [toLowerStr]
  | cons pc ps ih =>
    intro s r h
    cases s with
    | nil => simp [dropLitCI] at h
    | cons c cs =>
      simp only [dropLitCI] at h
      by_cases hc : pc.toLower = c.toLower
      · rw [if_pos hc] at h
        obtain ⟨h1, h2⟩ := ih cs r h
        refine ⟨by simp [h1]; omega, ?_⟩
        simp only [toLowerStr, List.map_cons] at h2 ⊢
        rw [h2, hc]
        simp
      · rw [if_neg hc] at h
        exact absurd h (by simp)

/-- Helper: a list starts with itself followed by anything. -/
theorem startsWithList_append (x : List Char) :
    ∀ y : List Char, startsWithList x (x ++ y) = true := by
  induction x with
  | nil => intro y; simp [startsWithList]
  | cons a as ih => intro y; simp [startsWithList, ih]


/-- Helper: containment holds anywhere to the right of a prefix match. -/
theorem containsList_of_startsWith (pat : List Char) :
    ∀ (pre s : List Char), startsWithList pat s = true → containsList pat (pre ++ s) = true := by
  intro pre
  induction pre with
  | nil =>
    intro s h
    cases s with
    | nil =>
      cases pat with
      | nil => simp [containsList]
      | cons p ps => simp [startsWithList] at h
    | cons c rest => simp [containsList, h]
  | cons a pre ih =>
    intro s h
    rw [List.cons_append]
    show (startsWithList pat (a :: (pre ++ s)) || containsList pat (pre ++ s)) = true
    rw [ih s h, Bool.or_true]

/-- Helper: dropWhile does not lengthen a list. -/
theorem dropWhile_length_le (p : Char → Bool) :
    ∀ l : List Char, (l.dropWhile p).length ≤ l.length := by
  intro l
  induction l with
  | nil => simp
  | cons c cs ih =>
    rw [List.dropWhile_cons]
    by_cases h : p c
    · simp only [h, if_true]
      simp only [List.length_cons]
      omega
    · simp [h]

/-- Helper: an anchored ward-number match implies a lowercase ward at the
    head and an input of length at least 7. -/
theorem matchWardNoAt_spec :
    ∀ (s d : List Char), matchWardNoAt s = some d →
      startsWithList ("ward".toList) (toLowerStr s) = true ∧ 7 ≤ s.length := by
  intro s d h
  unfold matchWardNoAt at h
  cases h1 : dropLitCI ("ward".toList) s with
  | none => rw [h1] at h; simp at h
  | some s1 =>
    rw [h1] at h
    simp only [] at h
    obtain ⟨hlen1, hlow1⟩ := dropLitCI_spec _ s s1 h1
    cases h2 : dropLitCI ("no".toList) (s1.dropWhile isPySpace) with
    | none => rw [h2] at h; simp at h
    | some s3 =>
      rw [h2] at h
      simp only [] at h
      obtain ⟨hlen2, _⟩ := dropLitCI_spec _ _ s3 h2
      constructor
      · rw [hlow1]
        have heq : toLowerStr ("ward".toList) = "ward".toList := by decide
        rw [← heq]
        exact startsWithList_append _ _
      · have hdw : (s1.dropWhile isPySpace).length ≤ s1.length :=
          dropWhile_length_le _ _
        have hs3 : 1 ≤ s3.length := by
          cases s3 with
          | nil => simp at h
          | cons x xs => simp
        have hw4 : ("ward".toList).length = 4 := by decide
        have hn2 : ("no".toList).length = 2 := by decide
        omega

/-- Helper: a ward-number regex match anywhere implies the cell text contains
    `ward` (case-insensitively) and has length greater than 5. -/
theorem searchWardNo_spec :
    ∀ (s d : List Char), searchWardNo s = some d →
      containsWard s = true ∧ 5 < s.length := by
  intro s
  induction s with
  | nil => intro d h; simp [searchWardNo] at h
  | cons c rest ih =>
    intro d h
    simp only [searchWardNo] at h
    cases hm : matchWardNoAt (c :: rest) with
    | some d2 =>
      obtain ⟨hs, hl⟩ := matchWardNoAt_spec _ _ hm
      constructor
      · show containsList ("ward".toList) (toLowerStr (c :: rest)) = true
        have : toLowerStr (c :: rest) = [] ++ toLowerStr (c :: rest) := by simp
        rw [this]
        exact containsList_of_startsWith _ [] _ hs
      · simp only [List.length_cons] at hl ⊢
        omega
    | none =>
      rw [hm] at h
      obtain ⟨hc, hl⟩ := ih d h
      constructor
      · show containsList ("ward".toList) (toLowerStr (c :: rest)) = true
        simp only [toLowerStr, List.map_cons, containsList]
        have : containsList ("ward".toList) (toLowerStr rest) = true := hc
        rw [toLowerStr] at this
        rw [this]
        simp
      · simp only [List.length_cons]
        omega

/-- Helper: the final fallback branch of the cell rule chain never fires, so the
    step function equals its branch-removed variant. -/
theorem stepCell_eq_stepCellNB (w : WardInfo) (i : Nat) (t : List Char) :
    stepCell w i t = stepCellNB w i t := by
  unfold stepCell stepCellNB
  split_ifs with h1 h2 h3 h4 h5 h6 h7 h8 h9 <;> try rfl
  · cases hs : searchWardNo t with
    | none => rfl
    | some d =>
      obtain ⟨hc, hl⟩ := searchWardNo_spec t d hs
      exact absurd ⟨hc, hl, h9⟩ h8
  · cases hs : searchWardNo t <;> rfl

/-- Helper: the whole cell loop is unchanged by removing the dead branch. -/
theorem wardFold_eq_NB (cells : List (List Char)) : wardFold cells = wardFoldNB cells := by
  have hf : stepCell = stepCellNB := by
    funext w i t
    exact stepCell_eq_stepCellNB w i t
  unfold wardFold wardFoldNB
  rw [hf]

/-- Helper: the full extractor is unchanged by removing the dead branch. -/
theorem extract_eq_NB (cells : List (List Char)) :
    extractWardFromCells cells = extractWardFromCellsNB cells := by
  simp only [extractWardFromCells, extractWardInfoFromTexts, extractWardFromCellsNB,
    wardFold_eq_NB]

/-- C10: the final fallback branch matching the ward-number pattern is
    unreachable: any cell text the pattern matches contains `ward`
    (case-insensitively) and has length greater than 5, so an earlier rule of
    the same chain fires first whenever wardName is unset; consequently the
    extractor equals, on every input, the same function with that branch
    removed. -/
theorem ward_no_branch_unreachable :
    (∀ t d : List Char, searchWardNo t = some d → containsWard t = true ∧ 5 < t.length) ∧
    (∀ (w : WardInfo) (i : Nat) (t : List Char), stepCell w i t = stepCellNB w i t) ∧
    (∀ cells : List (List Char), extractWardFromCells cells = extractWardFromCellsNB cells) :=
  ⟨searchWardNo_spec, stepCell_eq_stepCellNB, extract_eq_NB⟩

/-- C10 witness: the text `ward no 12` is matched by the pattern (capturing 12),
    and indeed contains `ward` and has length greater than 5. -/
theorem ward_no_branch_unreachable_witness :
    containsWard ("ward no 12".toList) = true ∧ 5 < ("ward no 12".toList).length :=
  ward_no_branch_unreachable.1 ("ward no 12".toList) ("12".toList) (by decide)

/-- C2 (amended): the rules are applied in a single left-to-right pass,
    checking the rules in the stated order for each cell; a field set while
    processing an earlier cell is never overwritten by a later cell's guarded
    fallback rules, but the unguarded positional rules may overwrite: the rule
    at cell index 1 may overwrite wardName, the rule at index 2 wardNumber and
    the rule at index 3 lgdCode; at every other index a set field is preserved. -/
theorem stepCell_no_overwrite_amended (w : WardInfo) (i : Nat) (t : List Char) :
    (w.ward_name ≠ [] → i ≠ 1 → (stepCell w i t).ward_name = w.ward_name) ∧
    (w.ward_number ≠ [] → i ≠ 2 → (stepCell w i t).ward_number = w.ward_number) ∧
    (w.lgd_code ≠ [] → i ≠ 3 → (stepCell w i t).lgd_code = w.lgd_code) := by
  rw [stepCell_eq_stepCellNB]
  unfold stepCellNB
  split_ifs with h1 h2 h3 h4 h5 h6 h7 h8 <;>
    refine ⟨?_, ?_, ?_⟩ <;> intro hset hidx <;> try rfl
  · exact absurd h3.1 hidx
  · exact absurd h4.1 hidx
  · exact absurd h5.1 hidx
  · exact absurd (List.isEmpty_iff.mp h6.2.2) hset
  · exact absurd (List.isEmpty_iff.mp h7.2.2) hset
  · exact absurd (List.isEmpty_iff.mp h8.2.2) hset

/-- C2 witness: a fully populated record is preserved by a later cell (index 7)
    whose text is a two-digit number. -/
theorem stepCell_no_overwrite_amended_witness :
    (stepCell ⟨"9".toList, "Ward A".toList, "123".toList⟩ 7 ("55".toList)).ward_name =
        "Ward A".toList ∧
    (stepCell ⟨"9".toList, "Ward A".toList, "123".toList⟩ 7 ("55".toList)).ward_number =
        "9".toList ∧
    (stepCell ⟨"9".toList, "Ward A".toList, "123".toList⟩ 7 ("55".toList)).lgd_code =
        "123".toList := by
  have h := stepCell_no_overwrite_amended ⟨"9".toList, "Ward A".toList, "123".toList⟩ 7
    ("55".toList)
  exact ⟨h.1 (by decide) (by decide), h.2.1 (by decide) (by decide),
    h.2.2 (by decide) (by decide)⟩

/-- Helper: collapsing spaces keeps the head element. -/
theorem collapseSpaces_head :
    ∀ (xs : List Char) (x : Char), (collapseSpaces (x :: xs)).head? = some x := by
  intro xs
  induction xs with
  | nil => intro x; simp [collapseSpaces]
  | cons b r ih =>
    intro x
    simp only [collapseSpaces]
    by_cases h : (x == ' ' && b == ' ') = true
    · rw [if_pos h]
      rw [ih b]
      simp only [Bool.and_eq_true, beq_iff_eq] at h
      rw [h.1, h.2]
    · rw [if_neg h]
      simp

/-- Helper: collapsing spaces keeps the last element. -/
theorem collapseSpaces_getLast :
    ∀ l : List Char, (collapseSpaces l).getLast? = l.getLast? := by
  intro l
  induction l with
  | nil => simp [collapseSpaces]
  | cons a l ih =>
    cases l with
    | nil => simp [collapseSpaces]
    | cons b r =>
      simp only [collapseSpaces]
      by_cases h : (a == ' ' && b == ' ') = true
      · rw [if_pos h, ih, List.getLast?_cons_cons]
      · rw [if_neg h]
        have hne : collapseSpaces (b :: r) ≠ [] := by
          intro hnil
          have := collapseSpaces_head r b
          rw [hnil] at this
          simp at this
        cases hc : collapseSpaces (b :: r) with
        | nil => exact absurd hc hne
        | cons y tl =>
          rw [List.getLast?_cons_cons, ← hc, ih, List.getLast?_cons_cons]

/-- Helper: the collapse output has no two adjacent spaces. -/
theorem collapseSpaces_noTwo : ∀ l : List Char, noTwoSpaces (collapseSpaces l) = true := by
  intro l
  induction l with
  | nil => simp [collapseSpaces, noTwoSpaces]
  | cons a l ih =>
    cases l with
    | nil => simp [collapseSpaces, noTwoSpaces]
    | cons b r =>
      simp only [collapseSpaces]
      by_cases h : (a == ' ' && b == ' ') = true
      · rw [if_pos h]; exact ih
      · rw [if_neg h]
        cases hc : collapseSpaces (b :: r) with
        | nil => simp [noTwoSpaces]
        | cons y tl =>
          have hy : y = b := by
            have h2 := collapseSpaces_head r b
            rw [hc] at h2
            simpa using h2
          rw [hc] at ih
          simp only [noTwoSpaces, Bool.and_eq_true]
          refine ⟨?_, ih⟩
          subst hy
          simp at h ⊢
          tauto

/-- Helper: collapsing spaces preserves any all-elements property. -/
theorem collapseSpaces_all (p : Char → Bool) :
    ∀ l : List Char, l.all p = true → (collapseSpaces l).all p = true := by
  intro l
  induction l with
  | nil => intro h; simp [collapseSpaces]
  | cons a l ih =>
    cases l with
    | nil => intro h; simpa [collapseSpaces] using h
    | cons b r =>
      intro h
      simp only [List.all_cons, Bool.and_eq_true] at h
      simp only [collapseSpaces]
      by_cases hc : (a == ' ' && b == ' ') = true
      · rw [if_pos hc]
        exact ih (by simp [h.2.1, h.2.2])
      · rw [if_neg hc]
        simp only [List.all_cons, Bool.and_eq_true]
        exact ⟨h.1, ih (by simp [h.2.1, h.2.2])⟩

/-- Helper: collapsing is the identity on lists with no two adjacent spaces. -/
theorem collapseSpaces_id :
    ∀ l : List Char, noTwoSpaces l = true → collapseSpaces l = l := by
  intro l
  induction l with
  | nil => intro _; rfl
  | cons a l ih =>
    cases l with
    | nil => intro _; rfl
    | cons b r =>
      intro h
      simp only [noTwoSpaces, Bool.and_eq_true] at h
      simp only [collapseSpaces]
      have hne : ¬((a == ' ' && b == ' ') = true) := by
        have := h.1
        simp at this ⊢
        tauto
      rw [if_neg hne, ih h.2]

/-- Helper: the right strip preserves any all-elements property. -/
theorem stripTrail_all (p : Char → Bool) :
    ∀ l : List Char, l.all p = true → (stripTrail l).all p = true := by
  intro l
  induction l with
  | nil => intro _; simp [stripTrail]
  | cons c cs ih =>
    intro h
    simp only [List.all_cons, Bool.and_eq_true] at h
    simp only [stripTrail]
    cases hs : stripTrail cs with
    | nil =>
      by_cases hws : isPySpace c = true
      · simp [hws]
      · simp [hws, h.1]
    | cons r rs =>
      have := ih h.2
      rw [hs] at this
      simp only [List.all_cons, Bool.and_eq_true] at this ⊢
      exact ⟨h.1, this⟩

/-- Helper: the right strip is empty or keeps the head. -/
theorem stripTrail_head :
    ∀ l : List Char, stripTrail l = [] ∨ (stripTrail l).head? = l.head? := by
  intro l
  cases l with
  | nil => left; rfl
  | cons c cs =>
    simp only [stripTrail]
    cases hs : stripTrail cs with
    | nil =>
      by_cases hws : isPySpace c = true
      · left; simp [hws]
      · right; simp [hws]
    | cons r rs => right; rfl

/-- Helper: the last element after a right strip is not whitespace. -/
theorem stripTrail_getLast :
    ∀ (l : List Char) (c : Char), (stripTrail l).getLast? = some c → isPySpace c = false := by
  intro l
  induction l with
  | nil => intro c h; simp [stripTrail] at h
  | cons c0 cs ih =>
    intro c h
    simp only [stripTrail] at h
    cases hs : stripTrail cs with
    | nil =>
      rw [hs] at h
      by_cases hws : isPySpace c0 = true
      · rw [if_pos hws] at h; simp at h
      · rw [if_neg hws] at h
        simp only [List.getLast?_singleton, Option.some.injEq] at h
        subst h
        simpa using hws
    | cons r rs =>
      rw [hs] at h
      rw [List.getLast?_cons_cons] at h
      rw [← hs] at h
      exact ih c h

/-- Helper: the right strip is the identity when the last element is not whitespace. -/
theorem stripTrail_eq_self :
    ∀ l : List Char, (∀ c, l.getLast? = some c → isPySpace c = false) → stripTrail l = l := by
  intro l
  induction l with
  | nil => intro _; rfl
  | cons c0 cs ih =>
    intro h
    simp only [stripTrail]
    cases cs with
    | nil =>
      have hc0 := h c0 (by simp)
      simp [stripTrail, hc0]
    | cons d ds =>
      have hcs : stripTrail (d :: ds) = d :: ds := by
        apply ih
        intro c hc
        apply h
        rw [List.getLast?_cons_cons]
        exact hc
      rw [hcs]

/-- Helper: the head after dropping leading whitespace is not whitespace. -/
theorem dropWhile_head_not :
    ∀ (l : List Char) (c : Char),
      (l.dropWhile isPySpace).head? = some c → isPySpace c = false := by
  intro l
  induction l with
  | nil => intro c h; simp at h
  | cons a as ih =>
    intro c h
    rw [List.dropWhile_cons] at h
    by_cases ha : isPySpace a = true
    · rw [if_pos ha] at h
      exact ih c h
    · rw [if_neg ha] at h
      simp only [List.head?_cons, Option.some.injEq] at h
      subst h
      simpa using ha

/-- Helper: mapping whitespace to spaces, cons equation. -/
theorem mapWs_cons (a : Char) (l : List Char) :
    mapWs (a :: l) = (if isPySpace a then ' ' else a) :: mapWs l := rfl

/-- Helper: collapse of a cons whose head is not a space. -/
theorem collapseSpaces_cons_ne (a : Char) (Y : List Char) (h : (a = ' ') → False) :
    collapseSpaces (a :: Y) = a :: collapseSpaces Y := by
  cases Y with
  | nil => rfl
  | cons y tl =>
    simp only [collapseSpaces]
    rw [if_neg]
    simp only [Bool.and_eq_true, beq_iff_eq]
    intro hcon
    exact h hcon.1

/-- Helper: the spec's one-pass collapse equals map-to-space plus collapse after
    a right strip. -/
theorem ctGo_eq : ∀ l : List Char, ctGo l = collapseSpaces (mapWs (stripTrail l)) := by
  intro l
  induction l with
  | nil => rfl
  | cons c cs ih =>
    simp only [ctGo]
    by_cases hws : isPySpace c = true
    · rw [if_pos hws]
      cases hs : stripTrail cs with
      | nil =>
        rw [ih, hs]
        simp only [stripTrail, hs, if_pos hws]
        rfl
      | cons r rs =>
        rw [ih, hs]
        simp only [stripTrail, hs, mapWs_cons, if_pos hws]
        set x := if isPySpace r then ' ' else r with hx
        cases hc : collapseSpaces (x :: mapWs rs) with
        | nil =>
          have hh := collapseSpaces_head (mapWs rs) x
          rw [hc] at hh
          simp at hh
        | cons y tl =>
          have hy : y = x := by
            have hh := collapseSpaces_head (mapWs rs) x
            rw [hc] at hh
            simpa using hh
          simp only [collapseSpaces]
          rw [hc, hy]
          by_cases hxs : x = ' ' <;> simp [hxs]
    · rw [if_neg hws]
      cases hs : stripTrail cs with
      | nil =>
        rw [ih, hs]
        simp only [stripTrail, hs, if_neg hws]
        simp [mapWs, collapseSpaces, hws]
      | cons r rs =>
        rw [ih, hs]
        simp only [stripTrail, hs, mapWs_cons, if_neg hws]
        rw [collapseSpaces_cons_ne c _ (fun hc => hws (by rw [hc]; decide))]

/-- Helper: the spec's collapse-and-trim equals the code's strip-then-substitute. -/
theorem collapseTrimSpec_eq (l : List Char) : collapseTrimSpec l = squeezeStrip l := by
  unfold collapseTrimSpec squeezeStrip pyStrip
  rw [ctGo_eq]

/-- Helper: the spec-side replacement map is the code's substitution. -/
theorem replaceOutsideKept_eq (l : List Char) : replaceOutsideKept l = subBadToSpace l := rfl

/-- Helper: mapping with a pointwise-fixed function is the identity. -/
theorem map_id_of_mem (f : Char → Char) :
    ∀ l : List Char, (∀ c ∈ l, f c = c) → l.map f = l := by
  intro l
  induction l with
  | nil => intro _; rfl
  | cons a as ih =>
    intro h
    simp only [List.map_cons]
    rw [h a (by simp), ih fun c hc => h c (by simp [hc])]

/-- Helper: dropWhile preserves any all-elements property. -/
theorem all_dropWhile (p q : Char → Bool) :
    ∀ l : List Char, l.all p = true → (l.dropWhile q).all p = true := by
  intro l
  induction l with
  | nil => intro _; simp
  | cons a as ih =>
    intro h
    simp only [List.all_cons, Bool.and_eq_true] at h
    rw [List.dropWhile_cons]
    by_cases hq : q a = true
    · rw [if_pos hq]; exact ih h.2
    · rw [if_neg hq]
      simp only [List.all_cons, Bool.and_eq_true]
      exact ⟨h.1, h.2⟩

/-- Helper: mapping transports an all-elements property pointwise. -/
theorem all_map_pointwise (f : Char → Char) (p q : Char → Bool)
    (hpq : ∀ c, p c = true → q (f c) = true) :
    ∀ l : List Char, l.all p = true → (l.map f).all q = true := by
  intro l
  induction l with
  | nil => intro _; simp
  | cons a as ih =>
    intro h
    simp only [List.all_cons, Bool.and_eq_true] at h
    simp only [List.map_cons, List.all_cons, Bool.and_eq_true]
    exact ⟨hpq a h.1, ih h.2⟩

/-- Helper: the last element of a mapped list is the mapped last element. -/
theorem getLast?_map_eq (f : Char → Char) :
    ∀ l : List Char, (l.map f).getLast? = l.getLast?.map f := by
  intro l
  induction l with
  | nil => rfl
  | cons a as ih =>
    cases as with
    | nil => rfl
    | cons b r =>
      simp only [List.map_cons] at ih ⊢
      rw [List.getLast?_cons_cons, ih, List.getLast?_cons_cons]

/-- Helper: a whitespace character that satisfies the good-character invariant
    is the plain space. -/
theorem goodChar_space_eq (c : Char) (hg : goodChar c = true) (hws : isPySpace c = true) :
    c = ' ' := by
  unfold goodChar at hg
  rw [if_pos hws] at hg
  simpa using hg

/-- Helper: good characters are kept characters. -/
theorem goodChar_kept (c : Char) (hg : goodChar c = true) : keptChar c = true := by
  unfold goodChar at hg
  by_cases hws : isPySpace c = true
  · rw [if_pos hws] at hg
    have : c = ' ' := by simpa using hg
    rw [this]
    decide
  · rw [if_neg hws] at hg
    exact hg

/-- Helper: the whitespace-to-space map sends kept characters to good ones. -/
theorem goodChar_of_kept_mapWs (c : Char) (h : keptChar c = true) :
    goodChar (if isPySpace c then ' ' else c) = true := by
  by_cases hws : isPySpace c = true
  · rw [if_pos hws]; decide
  · rw [if_neg hws]
    unfold goodChar
    rw [if_neg hws]
    exact h

/-- Helper: the bad-character substitution always yields kept characters. -/
theorem subBad_all_kept : ∀ l : List Char, (subBadToSpace l).all keptChar = true := by
  intro l
  induction l with
  | nil => simp [subBadToSpace]
  | cons a as ih =>
    simp only [subBadToSpace, List.map_cons, List.all_cons, Bool.and_eq_true]
    refine ⟨?_, ih⟩
    by_cases h : keptChar a = true
    · rw [if_pos h]; exact h
    · rw [if_neg h]; decide

/-- Helper: membership of the last element. -/
theorem mem_of_getLast?_eq (l : List Char) (c : Char) (h : l.getLast? = some c) : c ∈ l := by
  have hx : c ∈ l.getLast? := by rw [h]; rfl
  obtain ⟨hne, heq⟩ := List.mem_getLast?_eq_getLast hx
  rw [heq]
  exact List.getLast_mem hne

/-- Helper: on input of kept characters, the strip-and-collapse output satisfies
    the canonical-form invariant: good characters only, no two adjacent spaces,
    and no space at either end. -/
theorem squeezeStrip_canon (m : List Char) (hm : m.all keptChar = true) :
    (squeezeStrip m).all goodChar = true ∧
    noTwoSpaces (squeezeStrip m) = true ∧
    (∀ c, (squeezeStrip m).head? = some c → c ≠ ' ') ∧
    (∀ c, (squeezeStrip m).getLast? = some c → c ≠ ' ') := by
  refine ⟨?_, collapseSpaces_noTwo _, ?_, ?_⟩
  · apply collapseSpaces_all
    apply all_map_pointwise _ keptChar goodChar goodChar_of_kept_mapWs
    unfold pyStrip
    exact stripTrail_all _ _ (all_dropWhile _ _ _ hm)
  · intro c hc
    cases hX : mapWs (pyStrip m) with
    | nil =>
      unfold squeezeStrip at hc
      rw [hX] at hc
      simp [collapseSpaces] at hc
    | cons x xs =>
      unfold squeezeStrip at hc
      rw [hX] at hc
      rw [collapseSpaces_head xs x] at hc
      cases hY : pyStrip m with
      | nil => rw [hY] at hX; simp [mapWs] at hX
      | cons y ys =>
        rw [hY, mapWs_cons] at hX
        have hyx : x = if isPySpace y then ' ' else y := by
          have := hX
          simp only [List.cons.injEq] at this
          exact this.1.symm
        have hyws : isPySpace y = false := by
          have hh : (pyStrip m).head? = some y := by rw [hY]; rfl
          unfold pyStrip at hh
          rcases stripTrail_head (m.dropWhile isPySpace) with hnil | hhead
          · rw [hnil] at hh; simp at hh
          · rw [hhead] at hh
            exact dropWhile_head_not m y hh
        rw [if_neg (by simp [hyws])] at hyx
        have hcx : c = x := by
          have := hc
          simp only [Option.some.injEq] at this
          exact this.symm
        rw [hcx, hyx]
        intro hsp
        rw [hsp] at hyws
        simp [isPySpace] at hyws
  · intro c hc
    unfold squeezeStrip mapWs at hc
    rw [collapseSpaces_getLast] at hc
    rw [getLast?_map_eq] at hc
    cases hz : (pyStrip m).getLast? with
    | none => rw [hz] at hc; simp at hc
    | some z =>
      rw [hz] at hc
      have hzws : isPySpace z = false := by
        unfold pyStrip at hz
        exact stripTrail_getLast _ z hz
      simp only [Option.map_some'] at hc
      rw [if_neg (by simp [hzws])] at hc
      have : c = z := by
        have h3 := hc
        simp only [Option.some.injEq] at h3
        exact h3.symm
      rw [this]
      intro hsp
      rw [hsp] at hzws
      simp [isPySpace] at hzws

/-- Helper: the normalizer's output satisfies the canonical-form invariant. -/
theorem normalize_canon (s : List Char) :
    (normalize_text s).all goodChar = true ∧
    noTwoSpaces (normalize_text s) = true ∧
    (∀ c, (normalize_text s).head? = some c → c ≠ ' ') ∧
    (∀ c, (normalize_text s).getLast? = some c → c ≠ ' ') := by
  unfold normalize_text
  by_cases hs : s.isEmpty = true
  · rw [if_pos hs]
    refine ⟨rfl, rfl, ?_, ?_⟩ <;> intro c h <;> simp at h
  · rw [if_neg hs]
    exact squeezeStrip_canon _ (subBad_all_kept _)

/-- Helper: the normalizer is the identity on canonical-form strings. -/
theorem normalize_id_of_canon (l : List Char)
    (hall : l.all goodChar = true) (h2 : noTwoSpaces l = true)
    (hh : ∀ c, l.head? = some c → c ≠ ' ') (hl : ∀ c, l.getLast? = some c → c ≠ ' ') :
    normalize_text l = l := by
  by_cases hne : l = []
  · rw [hne]; rfl
  · have hgood : ∀ c ∈ l, goodChar c = true := by
      intro c hc
      exact List.all_eq_true.mp hall c hc
    have hstrip : pyStrip l = l := by
      unfold pyStrip
      have hdrop : l.dropWhile isPySpace = l := by
        cases l with
        | nil => rfl
        | cons a as =>
          rw [List.dropWhile_cons, if_neg ?_]
          have ha := hh a (by simp)
          have hga : goodChar a = true := hgood a (by simp)
          intro hws
          exact ha (goodChar_space_eq a hga hws)
      rw [hdrop]
      apply stripTrail_eq_self
      intro c hc
      have hcn := hl c hc
      have hg : goodChar c = true := hgood c (mem_of_getLast?_eq l c hc)
      by_contra hws
      simp only [Bool.not_eq_false] at hws
      exact hcn (goodChar_space_eq c hg hws)
    have hmapWs : mapWs l = l := by
      apply map_id_of_mem
      intro c hc
      have hg := hgood c hc
      by_cases hws : isPySpace c = true
      · have := goodChar_space_eq c hg hws
        simp [hws, this]
      · simp [hws]
    have hcs : collapseSpaces l = l := collapseSpaces_id l h2
    have hsub : subBadToSpace l = l := by
      apply map_id_of_mem
      intro c hc
      rw [if_pos (goodChar_kept c (hgood c hc))]
    unfold normalize_text
    rw [if_neg (by simpa [List.isEmpty_iff] using hne)]
    unfold squeezeStrip
    rw [hstrip, hmapWs, hcs, hsub, hstrip, hmapWs, hcs]

/-- C5: the text normalizer is idempotent: normalizing an already-normalized
    string returns it unchanged. -/
theorem normalize_text_idempotent (s : List Char) :
    normalize_text (normalize_text s) = normalize_text s := by
  obtain ⟨h1, h2, h3, h4⟩ := normalize_canon s
  exact normalize_id_of_canon _ h1 h2 h3 h4

/-- C6 (amended): for every input, the normalizer collapses all whitespace runs
    to single spaces and trims both ends, replaces every character outside the
    set of word characters, whitespace, hyphen, period, comma, parentheses and
    slash with a space, then re-collapses and re-trims whitespace; empty or null
    input yields the empty string. -/
theorem normalize_text_replace_spec (l : List Char) :
    normalize_text l = normalizeSpecReplace l ∧ normalize_text [] = [] := by
  constructor
  · unfold normalize_text normalizeSpecReplace
    rw [collapseTrimSpec_eq, replaceOutsideKept_eq, collapseTrimSpec_eq]
  · rfl
